import Mathlib

/-!
# Verification of the flv-keyframes core

Shallow embedding of the flv-keyframes repository (an HTTP server that
virtually splices a `keyframes` index into FLV files) together with proofs
about the embedded operations.

The embedding covers:
* `src/patch.rs` — the `Patch` descriptor, the virtual `PatchedReader`
  (async read + seek over the spliced view) and the chunk-level
  `PatchedStream`;
* `src/keyframes.rs` — the keyframe index and its AMF0 serialization;
* `src/main.rs` — the `generate_patch` scan, the two-pass patched-tag
  construction and the HTTP `Range` resolution of `reply_with_patch`.

Bytes are modelled as natural numbers, `u64` values as `ℕ` (with explicit
wrapping where the source casts through `i64`), and `f64` values as `ℚ`
(all numbers the program stores and adds are integers far below `2^53`,
where `f64` arithmetic is exact).
-/

namespace FlvKeyframes

/-! ## `src/patch.rs` : the `Patch` descriptor and the `PatchedReader` -/

/-- The `Patch` descriptor from `src/patch.rs`: replace `origin_size` bytes of
the original file starting at `origin_pos` with the bytes `patched`. -/
structure Patch where
  origin_pos : ℕ
  origin_size : ℕ
  patched : List ℕ
deriving DecidableEq, Repr

/-- State of `PatchedReader<R>` from `src/patch.rs`.  The back-end reader `R`
is modelled by the byte list `original` together with its file position
`backendPos`; `offset` is the caller-visible logical position and
`origin_length` the original file length captured at construction. -/
structure PatchedReader where
  original : List ℕ
  backendPos : ℕ
  patch : Patch
  offset : ℕ
  origin_length : ℕ
deriving DecidableEq, Repr

/-- `PatchedReader::patched_len`. -/
def PatchedReader.patchedLen (r : PatchedReader) : ℕ :=
  r.patch.patched.length

/-- `PatchedReader::len`: `origin_length + patched_len − origin_size`
(`u64` arithmetic; truncated subtraction mirrors the no-underflow case). -/
def PatchedReader.len (r : PatchedReader) : ℕ :=
  r.origin_length + r.patchedLen - r.patch.origin_size

/-- `PatchedReader::new`: seek the back-end to the end to capture
`origin_length`, start at logical offset `0`. -/
def PatchedReader.new (original : List ℕ) (patch : Patch) : PatchedReader :=
  { original := original
    backendPos := original.length
    patch := patch
    offset := 0
    origin_length := original.length }

/-- `std::io::SeekFrom`. -/
inductive SeekFrom where
  | start (n : ℕ)
  | current (i : ℤ)
  | fromEnd (i : ℤ)
deriving DecidableEq, Repr

/-- `as u64` of a (possibly negative) integer: wrap modulo `2^64`. -/
def u64wrap (i : ℤ) : ℕ :=
  (i.emod (2 ^ 64)).toNat

/-- `PatchedReader::start_seek` from `src/patch.rs`: update only the logical
`offset` (`Start` takes the value, `Current`/`End` go through `i64` casts)
and report success.  No other component of the state is touched. -/
def PatchedReader.startSeek (r : PatchedReader) (position : SeekFrom) :
    Except Unit PatchedReader :=
  .ok { r with
        offset :=
          match position with
          | .start i => i
          | .current i => u64wrap ((r.offset : ℤ) + i)
          | .fromEnd i => u64wrap ((r.len : ℤ) + i) }

/-- `PatchedReader::poll_complete`: returns the current logical offset. -/
def PatchedReader.pollComplete (r : PatchedReader) : ℕ :=
  r.offset

/-- Errors a `poll_read` call can produce in the model: a Rust panic
(out-of-bounds slice or `copy_from_slice` length mismatch). -/
inductive ReadErr where
  | panic
deriving DecidableEq, Repr

/-- The `StartPoint::Origin` arm of `poll_read`: seek the back-end to `o`
(setting its position), then read up to `readSize` bytes from the original
file at `o`; both positions advance by the number of bytes actually read. -/
def PatchedReader.originRead (r : PatchedReader) (o readSize : ℕ) :
    Except ReadErr (List ℕ × PatchedReader) :=
  let bytes := (r.original.drop o).take readSize
  .ok (bytes, { r with
                backendPos := o + bytes.length
                offset := r.offset + bytes.length })

/-- `PatchedReader::poll_read` from `src/patch.rs`, byte for byte:

* `offset < origin_pos` — before the patch: read from the original at
  `offset`, at most `origin_pos - offset` bytes;
* `offset > origin_pos + patched_len` — after the patch: the source sets
  `readable = 0`, so the back-end read is issued with an empty buffer;
* otherwise — in the patch: `read_size = min buf (patched_len - p)` and the
  source slice is `patched[p..read_size]` (as written in the source), which
  panics unless it is a valid range of length `read_size`. -/
def PatchedReader.pollRead (r : PatchedReader) (bufLen : ℕ) :
    Except ReadErr (List ℕ × PatchedReader) :=
  let pt := r.patch
  if r.offset < pt.origin_pos then
    let readable := pt.origin_pos - r.offset
    r.originRead r.offset (min bufLen readable)
  else if r.offset > pt.origin_pos + r.patchedLen then
    let o := r.offset - r.patchedLen + pt.origin_size
    r.originRead o (min bufLen 0)
  else
    let p := r.offset - pt.origin_pos
    let readable := r.patchedLen - p
    let readSize := min bufLen readable
    if p ≤ readSize ∧ readSize ≤ pt.patched.length then
      let src := (pt.patched.drop p).take (readSize - p)
      if src.length = readSize then
        .ok (src, { r with offset := r.offset + readSize })
      else
        .error .panic
    else
      .error .panic

/-- The byte-exact piecewise view of spec §4.F.  Modelled from the spec:
this is the reference function the reader is compared against, not source
code. -/
def specPatchedByte (original : List ℕ) (pt : Patch) (k : ℕ) : Option ℕ :=
  if k < pt.origin_pos then
    original.get? k
  else if k < pt.origin_pos + pt.patched.length then
    pt.patched.get? (k - pt.origin_pos)
  else
    original.get? (k - pt.patched.length + pt.origin_size)

/-- Concrete reader used to exercise the post-patch read path: original file
`[10, 20, 30, 40]`, patch replacing 1 byte at position 1 with `[99]`,
logical offset 3 (strictly after the patch region). -/
def rCex1 : PatchedReader :=
  { original := [10, 20, 30, 40]
    backendPos := 3
    patch := { origin_pos := 1, origin_size := 1, patched := [99] }
    offset := 3
    origin_length := 4 }

/-- C1: the claim is false on the code (code bug).  At the post-patch logical
offset 3 with one byte of room left (`offset < len`), `poll_read` returns
zero bytes — the after-patch branch hard-codes `readable = 0` — although the
piecewise view of §4.F has the byte `original[3] = 40` there. -/
theorem c1_post_patch_read_is_empty :
    rCex1.pollRead 1 = .ok ([], rCex1)
    ∧ specPatchedByte rCex1.original rCex1.patch 3 = some 40
    ∧ rCex1.offset < rCex1.len :=
  ⟨rfl, rfl, by decide⟩

/-- Concrete reader used to exercise the in-patch read path at displacement
`p = 1 > 0`: patch `{origin_pos 0, origin_size 0, patched [1, 2]}`, logical
offset 1. -/
def rCex9 : PatchedReader :=
  { original := []
    backendPos := 0
    patch := { origin_pos := 0, origin_size := 0, patched := [1, 2] }
    offset := 1
    origin_length := 0 }

/-- C9: the claim is false on the code (code bug).  Serving a read from the
patch region at displacement `p = 1` with `n = min 1 (2 - 1) = 1`, the
source takes the slice `patched[1..1]` (empty) while the destination slice
has length `n = 1`, so `copy_from_slice` panics. -/
theorem c9_patch_slice_panic :
    rCex9.pollRead 1 = .error .panic :=
  rfl

/-- C8 (confirmed): a seek on the `PatchedReader` always completes
successfully, updates only the logical `offset` — computed from
`Start`/`Current`/`End` semantics against the logical length — performs no
back-end operation (back-end position and contents unchanged), leaves the
patch and `origin_length` unchanged, and `poll_complete` then returns the
logical offset. -/
theorem c8_seek_pure_bookkeeping (r : PatchedReader) (position : SeekFrom) :
    ∃ r', r.startSeek position = .ok r'
      ∧ r'.patch = r.patch
      ∧ r'.origin_length = r.origin_length
      ∧ r'.original = r.original
      ∧ r'.backendPos = r.backendPos
      ∧ r'.offset = (match position with
          | .start i => i
          | .current i => u64wrap ((r.offset : ℤ) + i)
          | .fromEnd i => u64wrap ((r.len : ℤ) + i))
      ∧ r'.pollComplete = r'.offset := by
  refine ⟨_, rfl, rfl, rfl, rfl, rfl, rfl, rfl⟩

/-- Frame facts of a successful `poll_read`: the patch, the original file and
the captured `origin_length` never change. -/
theorem pollRead_frame (r : PatchedReader) (n : ℕ) (out : List ℕ)
    (r' : PatchedReader) (h : r.pollRead n = .ok (out, r')) :
    r'.patch = r.patch ∧ r'.origin_length = r.origin_length
      ∧ r'.original = r.original := by
  unfold PatchedReader.pollRead PatchedReader.originRead at h
  dsimp only at h
  split at h
  · exact ⟨by cases h; rfl, by cases h; rfl, by cases h; rfl⟩
  · split at h
    · exact ⟨by cases h; rfl, by cases h; rfl, by cases h; rfl⟩
    · split at h
      · split at h
        · exact ⟨by cases h; rfl, by cases h; rfl, by cases h; rfl⟩
        · exact absurd h (by simp)
      · exact absurd h (by simp)

/-- C4 (confirmed): the length of a freshly constructed `PatchedReader` is
`origin_length + |patched| − origin_size` (as integers, under the
no-underflow invariant `origin_size ≤ origin_length + |patched|`), and both
seeking and reading preserve the computed length together with every field
it depends on. -/
theorem c4_len_identity :
    (∀ (original : List ℕ) (p : Patch),
        p.origin_size ≤ original.length + p.patched.length →
        ((PatchedReader.new original p).len : ℤ)
          = (original.length : ℤ) + p.patched.length - p.origin_size)
    ∧ (∀ (r : PatchedReader) (pos : SeekFrom) (r' : PatchedReader),
        r.startSeek pos = .ok r' →
        r'.len = r.len ∧ r'.origin_length = r.origin_length ∧ r'.patch = r.patch)
    ∧ (∀ (r : PatchedReader) (n : ℕ) (out : List ℕ) (r' : PatchedReader),
        r.pollRead n = .ok (out, r') →
        r'.len = r.len ∧ r'.origin_length = r.origin_length ∧ r'.patch = r.patch) := by
  refine ⟨?_, ?_, ?_⟩
  · intro original p h
    simp only [PatchedReader.new, PatchedReader.len, PatchedReader.patchedLen]
    omega
  · intro r pos r' h
    cases h
    exact ⟨rfl, rfl, rfl⟩
  · intro r n out r' h
    obtain ⟨hp, ho, _⟩ := pollRead_frame r n out r' h
    refine ⟨?_, ho, hp⟩
    simp [PatchedReader.len, PatchedReader.patchedLen, hp, ho]

/-- Concrete reader for the C4 witness: original file `[7]`, empty dummy
patch. -/
def rW4 : PatchedReader := PatchedReader.new [7] ⟨0, 0, []⟩

/-- `rW4` after a seek to logical position 5. -/
def rW4s : PatchedReader := { rW4 with offset := 5 }

/-- Witness for C4 at a concrete input: the construction identity for a
1-byte file with an empty dummy patch, a seek to 5 and a zero-byte in-patch
read, with every hypothesis discharged. -/
theorem c4_len_identity_witness :
    ((PatchedReader.new [7] ⟨0, 0, []⟩).len : ℤ)
      = ((([7] : List ℕ).length : ℕ) : ℤ) + (([] : List ℕ).length : ℕ)
        - ((0 : ℕ) : ℤ)
    ∧ (rW4s.len = rW4.len ∧ rW4s.origin_length = rW4.origin_length
        ∧ rW4s.patch = rW4.patch)
    ∧ (rW4.len = rW4.len ∧ rW4.origin_length = rW4.origin_length
        ∧ rW4.patch = rW4.patch) :=
  ⟨c4_len_identity.1 [7] ⟨0, 0, []⟩ (by decide),
   c4_len_identity.2.1 rW4 (.start 5) rW4s rfl,
   c4_len_identity.2.2 rW4 0 [] rW4 rfl⟩

/-! ## `src/patch.rs` : the chunk-level `PatchedStream` -/

/-- `PatchedStream::poll_next`, iterated over a whole list of input chunks.
State: the pending patch (`none` once spliced) and `offset`, the running
count of bytes forwarded before the splice.  When a chunk makes the stream
reach `origin_pos` (`offset + chunk.len ≥ origin_pos`), the chunk is split
at `origin_pos - offset` and the patched bytes are chained in between; the
patch is taken (never inserted again).  `origin_size` is never consulted. -/
def psRun : Option Patch → ℕ → List (List ℕ) → List ℕ
  | _, _, [] => []
  | none, off, c :: cs => c ++ psRun none off cs
  | some p, off, c :: cs =>
      if p.origin_pos ≤ off + c.length then
        (c.take (p.origin_pos - off) ++ p.patched
            ++ c.drop (p.origin_pos - off))
          ++ psRun none off cs
      else
        c ++ psRun (some p) (off + c.length) cs

/-- `Patch::patch_stream` composed with draining the stream: the
concatenated output of `PatchedStream` starting from offset 0 with the
patch pending. -/
def patchStream (p : Patch) (chunks : List (List ℕ)) : List ℕ :=
  psRun (some p) 0 chunks

/-- Insertion of `ins` into `l` at byte position `pos` (the operation the
claim describes). -/
def insertAt (pos : ℕ) (ins l : List ℕ) : List ℕ :=
  l.take pos ++ ins ++ l.drop pos

/-- Once the patch has been taken, the stream forwards chunks verbatim. -/
theorem psRun_none (cs : List (List ℕ)) : ∀ off, psRun none off cs = cs.flatten := by
  induction cs with
  | nil => intro off; rfl
  | cons c cs ih => intro off; simp [psRun, ih off]

/-- If the stream ends before reaching `origin_pos`, the patch is never
emitted. -/
theorem psRun_no_reach (p : Patch) (cs : List (List ℕ)) :
    ∀ off, off + (cs.map List.length).sum < p.origin_pos →
      psRun (some p) off cs = cs.flatten := by
  induction cs with
  | nil => intro off _; rfl
  | cons c cs ih =>
      intro off h
      simp only [List.map_cons, List.sum_cons] at h
      rw [psRun, if_neg (by omega), ih (off + c.length) (by omega)]
      simp

/-- The splice lands at `origin_pos - off` of the remaining stream whenever
the remaining chunks reach that far. -/
theorem psRun_insert (p : Patch) (cs : List (List ℕ)) :
    ∀ off, cs ≠ [] → off ≤ p.origin_pos →
      p.origin_pos ≤ off + (cs.map List.length).sum →
      psRun (some p) off cs
        = insertAt (p.origin_pos - off) p.patched cs.flatten := by
  induction cs with
  | nil => intro off h; exact absurd rfl h
  | cons c cs ih =>
      intro off _ hle hreach
      simp only [List.map_cons, List.sum_cons] at hreach
      by_cases htrig : p.origin_pos ≤ off + c.length
      · rw [psRun, if_pos htrig, psRun_none]
        unfold insertAt
        rw [List.flatten_cons,
          List.take_append_of_le_length (by omega),
          List.drop_append_of_le_length (by omega)]
        simp
      · have hc : c.length < p.origin_pos - off := by omega
        have hcs : cs ≠ [] := by
          rintro rfl
          simp only [List.map_nil, List.sum_nil, add_zero] at hreach
          omega
        rw [psRun, if_neg htrig,
          ih (off + c.length) hcs (by omega) (by omega)]
        unfold insertAt
        have h1 : List.take (p.origin_pos - off) c = c :=
          List.take_of_length_le (by omega)
        have h2 : List.drop (p.origin_pos - off) c = ([] : List ℕ) :=
          List.drop_eq_nil_of_le (by omega)
        have h3 : p.origin_pos - off - c.length = p.origin_pos - (off + c.length) := by
          omega
        rw [List.flatten_cons, List.take_append_eq_append_take,
          List.drop_append_eq_append_drop, h1, h2, h3]
        simp

/-- C10, amended: the patched bytes are spliced in exactly when the input
stream is nonempty and its total length reaches `origin_pos` — in that case
the output is the input with `patched` inserted at byte position
`origin_pos` (so `origin_size` plays no role and the output is longer by
`|patched|`); otherwise the patch is never emitted and the output is the
input unchanged. -/
theorem c10_stream_insert (p : Patch) (chunks : List (List ℕ)) :
    (chunks ≠ [] → p.origin_pos ≤ (chunks.map List.length).sum →
      patchStream p chunks = insertAt p.origin_pos p.patched chunks.flatten
      ∧ (patchStream p chunks).length
          = chunks.flatten.length + p.patched.length)
    ∧ (chunks = [] ∨ (chunks.map List.length).sum < p.origin_pos →
      patchStream p chunks = chunks.flatten) := by
  constructor
  · intro hne hreach
    have h := psRun_insert p chunks 0 hne (Nat.zero_le _) (by omega)
    rw [Nat.sub_zero] at h
    refine ⟨h, ?_⟩
    simp only [patchStream]
    rw [h]
    unfold insertAt
    have hlen : p.origin_pos ≤ chunks.flatten.length := by
      rw [List.length_flatten]; omega
    simp [List.length_take, List.length_drop]
    omega
  · rintro (rfl | hlt)
    · rfl
    · exact psRun_no_reach p chunks 0 (by omega)

/-- Witness for C10 at concrete inputs: patch `{origin_pos 1, origin_size 5,
patched [9]}` on the single-chunk stream `[[4, 5]]` (reaches position 1),
and the same patch on the stream `[]` (never reaches it). -/
theorem c10_stream_insert_witness :
    (patchStream ⟨1, 5, [9]⟩ [[4, 5]]
        = insertAt 1 [9] (List.flatten [[4, 5]])
      ∧ (patchStream ⟨1, 5, [9]⟩ [[4, 5]]).length
          = (List.flatten [[4, 5]]).length + [9].length)
    ∧ patchStream ⟨1, 5, [9]⟩ ([] : List (List ℕ)) = List.flatten [] :=
  ⟨(c10_stream_insert ⟨1, 5, [9]⟩ [[4, 5]]).1 (by decide) (by decide),
   (c10_stream_insert ⟨1, 5, [9]⟩ []).2 (Or.inl rfl)⟩

/-- C10, counterexample to the claim as stated: on the empty input stream
with `origin_pos = 0` the code never emits the patch, so the output is `[]`
and not the claimed insertion `[42]`, and its length is not
`input + |patched|`. -/
theorem c10_empty_stream_counterexample :
    patchStream ⟨0, 0, [42]⟩ [] = []
    ∧ insertAt 0 [42] (List.flatten []) = [42]
    ∧ ([] : List ℕ) ≠ [42] :=
  ⟨rfl, rfl, by decide⟩

/-! ## `src/main.rs` : HTTP range resolution in `reply_with_patch` -/

/-- One bound of a parsed HTTP `Range` header (`std::ops::Bound<u64>`). -/
inductive RangeBound where
  | unbounded
  | included (n : ℕ)
  | excluded (n : ℕ)
deriving DecidableEq, Repr

/-- The range computation of `reply_with_patch` (`src/main.rs`): resolve the
first requested range against the logical length `maxLen`, mapping
`Unbounded` to `0`/`maxLen`, `Included(s)` to `s`, `Excluded(s)` to `s + 1`
on both ends, and reject unless `start < end ∧ end ≤ maxLen`.  A missing
header (or an empty range iterator) yields `(0, maxLen)`. -/
def resolveRange (range : Option (RangeBound × RangeBound)) (maxLen : ℕ) :
    Except Unit (ℕ × ℕ) :=
  match range with
  | none => .ok (0, maxLen)
  | some (sb, eb) =>
      let s := match sb with
        | .unbounded => 0
        | .included i => i
        | .excluded i => i + 1
      let e := match eb with
        | .unbounded => maxLen
        | .included i => i
        | .excluded i => i + 1
      if s < e ∧ e ≤ maxLen then .ok (s, e) else .error ()

/-- `Content-Length` emitted by `reply_with_patch`, which also bounds the
body: the reader is wrapped in `take(range.1 - range.0)`. -/
def contentLength (range : ℕ × ℕ) : ℕ :=
  range.2 - range.1

/-- Body bytes served for a resolved range (seek to `range.1`, then
`take (range.2 - range.1)` bytes of the logical stream). -/
def servedBody (logical : List ℕ) (range : ℕ × ℕ) : List ℕ :=
  (logical.drop range.1).take (range.2 - range.1)

/-- C5: the claim is false on the code (code bug).  `Range: bytes=100-199`
parses to bounds `(Included 100, Included 199)`; the code maps the inclusive
end bound to the exclusive end `199`, so on a logical length of 10000 it
serves `take (199 - 100) = 99` bytes (bytes 100..198) with
`Content-Length: 99` — not the 100 bytes `100..=199` required by HTTP range
semantics and by the claim (and the emitted `Content-Range: bytes
100-199/10000` header contradicts the 99-byte body). -/
theorem c5_range_bytes_100_199 :
    resolveRange (some (.included 100, .included 199)) 10000 = .ok (100, 199)
    ∧ contentLength (100, 199) = 99
    ∧ (servedBody (List.range 10000) (100, 199)).length = 99
    ∧ (99 : ℕ) ≠ 100 := by
  refine ⟨rfl, rfl, ?_, by decide⟩
  simp [servedBody, List.length_take, List.length_drop]

/-! ## AMF0 values (the external `amf` crate's `amf0::Value`, restricted to
the constructors the program reads and emits) and their serialized sizes -/

/-- AMF0 value.  `f64` numbers are modelled as `ℚ`. -/
inductive Amf0Value where
  | number (q : ℚ)
  | boolean (b : Bool)
  | string (s : String)
  | object (entries : List (String × Amf0Value))
  | ecmaArray (entries : List (String × Amf0Value))
  | strictArray (values : List Amf0Value)
  | null
deriving Repr

/-- UTF-8 byte length of a string. -/
def utf8Len (s : String) : ℕ :=
  s.utf8ByteSize

mutual

/-- Serialized byte size of an AMF0 value, per the AMF0 wire format the
`amf` crate writes: a 1-byte marker, then 8 bytes for a number, 1 byte for a
boolean, `u16` length + bytes for a (short) string, key/value pairs plus the
3-byte object-end marker for objects, an extra `u32` count for ECMA arrays,
and a `u32` count for strict arrays.  The crucial property for the program
is that a number's size is independent of its value. -/
def amf0Size : Amf0Value → ℕ
  | .number _ => 9
  | .boolean _ => 2
  | .string s => 3 + utf8Len s
  | .object es => 1 + amf0PairsSize es + 3
  | .ecmaArray es => 5 + amf0PairsSize es + 3
  | .strictArray vs => 5 + amf0ListSize vs
  | .null => 1

/-- Serialized size of object entries: each key is a `u16` length plus its
bytes, followed by the value. -/
def amf0PairsSize : List (String × Amf0Value) → ℕ
  | [] => 0
  | (k, v) :: rest => (2 + utf8Len k) + amf0Size v + amf0PairsSize rest

/-- Serialized size of a list of values. -/
def amf0ListSize : List Amf0Value → ℕ
  | [] => 0
  | v :: rest => amf0Size v + amf0ListSize rest

end

/-! ## `src/keyframes.rs` : the keyframe index -/

/-- `Keyframes` from `src/keyframes.rs`: two parallel `f64` vectors and the
`offset` added to every file position at serialization time. -/
structure Keyframes where
  filepositions : List ℚ
  times : List ℚ
  offset : ℚ
deriving Repr

/-- `Keyframes::new`. -/
def Keyframes.new : Keyframes :=
  { filepositions := [], times := [], offset := 0 }

/-- `Keyframes::add`: push `offset as f64` and the time. -/
def Keyframes.add (kf : Keyframes) (offset : ℕ) (time : ℚ) : Keyframes :=
  { kf with
    filepositions := kf.filepositions ++ [(offset : ℚ)]
    times := kf.times ++ [time] }

/-- `Keyframes::into_amf0`: the `("keyframes", {filepositions, times})` pair,
with `offset` added to every stored file position and `times` unchanged. -/
def Keyframes.intoAmf0 (kf : Keyframes) : String × Amf0Value :=
  ("keyframes",
   .object
     [("filepositions",
       .strictArray (kf.filepositions.map fun i => .number (i + kf.offset))),
      ("times",
       .strictArray (kf.times.map fun t => .number t))])

/-! ## `src/main.rs` : `generate_patch` -/

/-- `has_keyframes` from `src/main.rs`: `try_into_pairs` succeeds for
objects and ECMA arrays; look for a pair keyed `"keyframes"`. -/
def hasKeyframes : Amf0Value → Bool
  | .object es => es.any fun p => p.1 == "keyframes"
  | .ecmaArray es => es.any fun p => p.1 == "keyframes"
  | _ => false

/-- `insert_keyframes` from `src/main.rs`: when the metadata decomposes
into pairs, rebuild it as a plain AMF0 object with the `keyframes` pair
appended last; any other value is returned unchanged. -/
def insertKeyframes (metadata : Amf0Value) (kf : Keyframes) : Amf0Value :=
  match metadata with
  | .object es => .object (es ++ [kf.intoAmf0])
  | .ecmaArray es => .object (es ++ [kf.intoAmf0])
  | v => v

/-- Byte length of `make_patched metadata` from `src/main.rs`: an 11-byte
FLV tag header, the AMF0 payload (`"onMetaData"` string then the metadata
value), and the 4-byte previous-tag-size trailer. -/
def makePatchedLen (metadata : Amf0Value) : ℕ :=
  11 + (amf0Size (.string "onMetaData") + amf0Size metadata) + 4

/-- The frame-type nibble of a video tag (`flv_codec::FrameType`). -/
inductive FrameType where
  | keyFrame
  | interFrame
  | disposableInterFrame
  | generatedKeyFrame
  | videoInfoOrCommandFrame
deriving DecidableEq, Repr

/-- Payload variant of a decoded FLV tag.  A script tag carries the list of
AMF0 values decodable in sequence from its data (decoding past the end of
that list is an AMF0 decode error). -/
inductive TagData where
  | audio
  | video (frameType : FrameType)
  | script (values : List Amf0Value)

/-- A decoded FLV tag: 24-bit payload size, timestamp in milliseconds, and
the payload variant.  `tag_size()` of the `flv_codec` crate is the on-disk
tag size, `11 + data_size`. -/
structure FlvTag where
  dataSize : ℕ
  timestamp : ℕ
  data : TagData

/-- `Tag::tag_size()`: 11-byte header plus payload. -/
def tagSize (t : FlvTag) : ℕ :=
  11 + t.dataSize

/-- One item of the decoder's output stream: a decoded tag, or the point at
which the `flv_codec` decoder fails on a malformed FLV stream. -/
inductive ScanItem where
  | tag (t : FlvTag)
  | malformed

/-- The FLV file header; `generate_patch` never reads `data_offset` (the
decoder consumes the header internally). -/
structure FlvHeader where
  dataOffset : ℕ
deriving DecidableEq, Repr

/-- The initial value of the running `offset` variable of `generate_patch`
(`src/main.rs` line 85): the constant `13` (`// flv header`), for every
header. -/
def initialOffset (_ : FlvHeader) : ℕ :=
  13

/-- Mutable state of the `generate_patch` scan loop. -/
structure ScanState where
  offset : ℕ
  keyframes : Keyframes
  metadataOffset : ℕ
  metadataSize : ℕ
  metadata : Option Amf0Value

/-- Initial scan state: `offset = 13`, empty keyframes, zeroed metadata
bookkeeping. -/
def ScanState.init (h : FlvHeader) : ScanState :=
  { offset := initialOffset h
    keyframes := Keyframes.new
    metadataOffset := 0
    metadataSize := 0
    metadata := none }

/-- Result of processing one tag: continue scanning, short-circuit with
`Ok(None)` (metadata already has `keyframes`), or fail (`InvalidData` /
AMF0 decode error). -/
inductive StepResult where
  | next (s : ScanState)
  | earlyNone (s : ScanState)
  | fail

/-- One iteration of the `generate_patch` loop on a decoded tag:

* audio tags are skipped;
* a video tag whose frame type is `KeyFrame` records
  `(offset, timestamp / 1000)`;
* a script tag decodes its first AMF0 value, which must be the string
  `"onMetaData"` (else `InvalidData`), then its second (the metadata);
  `metadata_offset`/`metadata_size` are recorded; if the metadata already
  has a `keyframes` pair the whole call returns `Ok(None)`, otherwise the
  metadata is stashed;
* `offset` then advances by `tag_size + 4`. -/
def scanStep (s : ScanState) (t : FlvTag) : StepResult :=
  match t.data with
  | .audio => .next { s with offset := s.offset + tagSize t + 4 }
  | .video ft =>
      let s' :=
        if ft = .keyFrame then
          { s with keyframes := s.keyframes.add s.offset ((t.timestamp : ℚ) / 1000) }
        else s
      .next { s' with offset := s.offset + tagSize t + 4 }
  | .script vals =>
      match vals with
      | .string name :: rest =>
          if name = "onMetaData" then
            match rest with
            | data :: _ =>
                let s' := { s with
                            metadataOffset := s.offset
                            metadataSize := tagSize t + 4 }
                if hasKeyframes data then
                  .earlyNone s'
                else
                  .next { s' with
                          metadata := some data
                          offset := s.offset + tagSize t + 4 }
            | [] => .fail
          else .fail
      | _ => .fail

/-- Outcome of the scan loop: early `Ok(None)` or end of stream. -/
inductive ScanOutcome where
  | earlyNone (s : ScanState)
  | done (s : ScanState)

/-- The scan loop of `generate_patch`: process decoder items until the
stream ends, an `Ok(None)` short-circuit, or an error. -/
def scanLoop (s : ScanState) : List ScanItem → Except Unit ScanOutcome
  | [] => .ok (.done s)
  | .malformed :: _ => .error ()
  | .tag t :: rest =>
      match scanStep s t with
      | .next s' => scanLoop s' rest
      | .earlyNone s' => .ok (.earlyNone s')
      | .fail => .error ()

/-- The final state carried by a scan outcome. -/
def ScanOutcome.state : ScanOutcome → ScanState
  | .earlyNone s => s
  | .done s => s

/-- Unfolding the loop over a tag the step continues past. -/
theorem scanLoop_cons_next {s s' : ScanState} {t : FlvTag}
    {rest : List ScanItem} (h : scanStep s t = .next s') :
    scanLoop s (.tag t :: rest) = scanLoop s' rest := by
  simp [scanLoop, h]

/-- Unfolding the loop over a tag that short-circuits with `Ok(None)`. -/
theorem scanLoop_cons_early {s s' : ScanState} {t : FlvTag}
    {rest : List ScanItem} (h : scanStep s t = .earlyNone s') :
    scanLoop s (.tag t :: rest) = .ok (.earlyNone s') := by
  simp [scanLoop, h]

/-- Unfolding the loop over a tag the step fails on. -/
theorem scanLoop_cons_fail {s : ScanState} {t : FlvTag}
    {rest : List ScanItem} (h : scanStep s t = .fail) :
    scanLoop s (.tag t :: rest) = .error () := by
  simp [scanLoop, h]

/-- The patch data `generate_patch` assembles after a successful scan.
`patched` itself is the serialization of `patchedValue` as an FLV script
tag; the model keeps the value and its byte length `patchedLen`. -/
structure GPPatch where
  origin_pos : ℕ
  origin_size : ℕ
  keyframes : Keyframes
  metadata : Amf0Value
  kfFinal : Keyframes
  patchedValue : Amf0Value
  patchedLen : ℕ

/-- The two-pass patched-tag construction of `generate_patch`
(`src/main.rs` lines 126-147): pass 1 serializes with the scan's keyframes
(offset 0) to learn `patched_len`; then `keyframes.offset` is set to
`patched_len - metadata_size` and pass 2 serializes the final tag. -/
def buildPatch (s : ScanState) (m : Amf0Value) : GPPatch :=
  let len1 := makePatchedLen (insertKeyframes m s.keyframes)
  let kf2 := { s.keyframes with offset := (len1 : ℚ) - (s.metadataSize : ℚ) }
  let v2 := insertKeyframes m kf2
  { origin_pos := s.metadataOffset
    origin_size := s.metadataSize
    keyframes := s.keyframes
    metadata := m
    kfFinal := kf2
    patchedValue := v2
    patchedLen := makePatchedLen v2 }

/-- The value `generate_patch` returns for a finished scan: `None` on the
keyframes short-circuit and when no metadata was stashed, otherwise the
built patch. -/
def outcomeResult : ScanOutcome → Option GPPatch
  | .earlyNone _ => none
  | .done s => s.metadata.map (buildPatch s)

/-- `generate_patch` over the decoded item stream of an FLV file:
`Ok(None)` on the keyframes short-circuit or when the scan finishes with no
stashed metadata; otherwise build the patch from the last stashed
metadata. -/
def generatePatch (h : FlvHeader) (items : List ScanItem) :
    Except Unit (Option GPPatch) :=
  (scanLoop (ScanState.init h) items).map outcomeResult

/-- C7, counterexample to the claim as stated: the running offset is the
hard-coded constant 13, so for a header with `data_offset = 16` it is not
`data_offset + 4 = 20`. -/
theorem c7_data_offset_counterexample :
    initialOffset ⟨16⟩ = 13 ∧ initialOffset ⟨16⟩ ≠ 16 + 4 :=
  ⟨rfl, by decide⟩

/-- C7, amended: the running offset is initialized to the constant 13
(which equals `data_offset + 4` only for the standard `data_offset = 9`),
is advanced by `tag_size + 4` on every processed tag, and its current value
is what a video keyframe records as its file position and what an
`onMetaData` script tag records as `metadata_offset`. -/
theorem c7_offset_init_advance :
    (∀ h : FlvHeader, initialOffset h = 13)
    ∧ (∀ (s : ScanState) (t : FlvTag) (s' : ScanState),
        scanStep s t = .next s' → s'.offset = s.offset + tagSize t + 4)
    ∧ (∀ (s : ScanState) (t : FlvTag) (s' : ScanState),
        t.data = .video .keyFrame → scanStep s t = .next s' →
        s'.keyframes.filepositions
          = s.keyframes.filepositions ++ [(s.offset : ℚ)])
    ∧ (∀ (s : ScanState) (t : FlvTag) (s' : ScanState) (vals : List Amf0Value),
        t.data = .script vals → scanStep s t = .next s' →
        s'.metadataOffset = s.offset) := by
  refine ⟨fun _ => rfl, ?_, ?_, ?_⟩
  · intro s t s' hstep
    rcases t with ⟨ds, ts, d⟩
    cases d with
    | audio => cases hstep; rfl
    | video ft =>
        simp only [scanStep] at hstep
        cases hstep; rfl
    | script vals =>
        simp only [scanStep] at hstep
        repeat' split at hstep
        all_goals cases hstep
        all_goals rfl
  · intro s t s' ht hstep
    rcases t with ⟨ds, ts, d⟩
    cases ht
    simp only [scanStep, if_pos rfl] at hstep
    cases hstep
    simp [Keyframes.add]
  · intro s t s' vals ht hstep
    rcases t with ⟨ds, ts, d⟩
    cases ht
    simp only [scanStep] at hstep
    repeat' split at hstep
    all_goals cases hstep
    all_goals rfl

/-- Concrete scan states for the C7 witness. -/
def sInitW : ScanState := ScanState.init ⟨9⟩

/-- State after an audio tag of payload size 0. -/
def sAudioW : ScanState := { sInitW with offset := 28 }

/-- State after a video keyframe tag of payload size 5 at timestamp 0. -/
def sVideoW : ScanState :=
  { sInitW with
    keyframes := Keyframes.new.add 13 ((0 : ℚ) / 1000)
    offset := 33 }

/-- State after an `onMetaData` script tag of payload size 30. -/
def sScriptW : ScanState :=
  { sInitW with
    metadataOffset := 13
    metadataSize := 45
    metadata := some (.object [])
    offset := 58 }

/-- Witness for C7 at concrete inputs: the initial offset for the standard
header, the offset advance over an audio tag, the position recorded by a
video keyframe, and the `metadata_offset` recorded by a script tag. -/
theorem c7_offset_init_advance_witness :
    initialOffset ⟨9⟩ = 13
    ∧ sAudioW.offset = sInitW.offset + tagSize ⟨0, 0, .audio⟩ + 4
    ∧ sVideoW.keyframes.filepositions
        = sInitW.keyframes.filepositions ++ [(sInitW.offset : ℚ)]
    ∧ sScriptW.metadataOffset = sInitW.offset :=
  ⟨c7_offset_init_advance.1 ⟨9⟩,
   c7_offset_init_advance.2.1 sInitW ⟨0, 0, .audio⟩ sAudioW rfl,
   c7_offset_init_advance.2.2.1 sInitW ⟨5, 0, .video .keyFrame⟩ sVideoW rfl rfl,
   c7_offset_init_advance.2.2.2 sInitW ⟨30, 0, .script [.string "onMetaData", .object []]⟩
     sScriptW [.string "onMetaData", .object []] rfl rfl⟩

/-! ## C2 : characterization of the `generate_patch` result -/

/-- A decoder item the scan processes without failing: not a decoder error,
and any script tag decodes to the string `"onMetaData"` followed by at
least one further AMF0 value. -/
def itemOk : ScanItem → Bool
  | .malformed => false
  | .tag t =>
      match t.data with
      | .audio => true
      | .video _ => true
      | .script (.string name :: _ :: _) => name == "onMetaData"
      | .script _ => false

/-- Is the item a script tag? -/
def isScriptItem : ScanItem → Bool
  | .tag t =>
      match t.data with
      | .script _ => true
      | _ => false
  | .malformed => false

/-- Is the item a script tag whose metadata value (second AMF0 value)
already carries a `keyframes` pair? -/
def scriptHasKeyframes : ScanItem → Bool
  | .tag t =>
      match t.data with
      | .script (_ :: v :: _) => hasKeyframes v
      | _ => false
  | .malformed => false

/-- On well-formed items, the scan always succeeds, and its result is
`None` exactly when some script tag's metadata already has `keyframes` or
no script tag occurs at all (relative to the incoming stashed metadata). -/
theorem scanLoop_none_iff (items : List ScanItem) :
    ∀ s : ScanState, (∀ i ∈ items, itemOk i = true) →
      ∃ out, scanLoop s items = .ok out
        ∧ (outcomeResult out = none
            ↔ (∃ i ∈ items, scriptHasKeyframes i = true)
              ∨ (s.metadata = none ∧ ∀ i ∈ items, isScriptItem i = false)) := by
  induction items with
  | nil =>
      intro s _
      refine ⟨.done s, rfl, ?_⟩
      simp [outcomeResult, Option.map_eq_none']
  | cons i rest ih =>
      intro s hwf
      have hok : itemOk i = true := hwf i (by simp)
      have hwf' : ∀ j ∈ rest, itemOk j = true := fun j hj => hwf j (by simp [hj])
      rcases i with t | _
      · rcases t with ⟨ds, ts, d⟩
        cases d with
        | audio =>
            simp only [scanLoop, scanStep]
            obtain ⟨out, hout, hiff⟩ := ih _ hwf'
            refine ⟨out, hout, ?_⟩
            rw [hiff]
            simp [scriptHasKeyframes, isScriptItem]
        | video ft =>
            by_cases hft : ft = FrameType.keyFrame
            · subst hft
              simp only [scanLoop, scanStep, if_pos rfl]
              obtain ⟨out, hout, hiff⟩ := ih _ hwf'
              refine ⟨out, hout, ?_⟩
              rw [hiff]
              simp [scriptHasKeyframes, isScriptItem]
            · simp only [scanLoop, scanStep, if_neg hft]
              obtain ⟨out, hout, hiff⟩ := ih _ hwf'
              refine ⟨out, hout, ?_⟩
              rw [hiff]
              simp [scriptHasKeyframes, isScriptItem]
        | script vals =>
            match vals with
            | [] => simp [itemOk] at hok
            | .number q :: vrest => simp [itemOk] at hok
            | .boolean b :: vrest => simp [itemOk] at hok
            | .object es :: vrest => simp [itemOk] at hok
            | .ecmaArray es :: vrest => simp [itemOk] at hok
            | .strictArray vs :: vrest => simp [itemOk] at hok
            | .null :: vrest => simp [itemOk] at hok
            | [.string name] => simp [itemOk] at hok
            | .string name :: v :: vrest =>
                have hname : name = "onMetaData" := by
                  simpa [itemOk] using hok
                subst hname
                by_cases hkf : hasKeyframes v = true
                · have hstep :
                      scanStep s
                        ⟨ds, ts, .script (.string "onMetaData" :: v :: vrest)⟩
                      = .earlyNone
                          { s with
                            metadataOffset := s.offset
                            metadataSize :=
                              tagSize ⟨ds, ts,
                                .script (.string "onMetaData" :: v :: vrest)⟩ + 4 } := by
                    simp [scanStep, hkf]
                  refine ⟨_, scanLoop_cons_early hstep, ?_⟩
                  simp [outcomeResult, scriptHasKeyframes, hkf]
                · have hkf' : hasKeyframes v = false := by
                    simpa using hkf
                  have hstep :
                      scanStep s
                        ⟨ds, ts, .script (.string "onMetaData" :: v :: vrest)⟩
                      = .next
                          { s with
                            offset := s.offset +
                              tagSize ⟨ds, ts,
                                .script (.string "onMetaData" :: v :: vrest)⟩ + 4
                            metadataOffset := s.offset
                            metadataSize :=
                              tagSize ⟨ds, ts,
                                .script (.string "onMetaData" :: v :: vrest)⟩ + 4
                            metadata := some v } := by
                    simp [scanStep, hkf']
                  rw [scanLoop_cons_next hstep]
                  obtain ⟨out, hout, hiff⟩ := ih _ hwf'
                  refine ⟨out, hout, ?_⟩
                  rw [hiff]
                  simp [scriptHasKeyframes, isScriptItem, hkf']
      · simp [itemOk] at hok

/-- On a well-formed prefix with no `keyframes` short-circuit, the scan
fails at the first offending item. -/
theorem scanLoop_error (pre : List ScanItem) :
    ∀ s : ScanState, (∀ i ∈ pre, itemOk i = true) →
      (∀ i ∈ pre, scriptHasKeyframes i = false) →
      ∀ (bad : ScanItem) (post : List ScanItem), itemOk bad = false →
        scanLoop s (pre ++ bad :: post) = .error () := by
  induction pre with
  | nil =>
      intro s _ _ bad post hbad
      rcases bad with t | _
      · rcases t with ⟨ds, ts, d⟩
        cases d with
        | audio => simp [itemOk] at hbad
        | video ft => simp [itemOk] at hbad
        | script vals =>
            match vals with
            | [] => simp [scanLoop, scanStep]
            | .number q :: vrest => simp [scanLoop, scanStep]
            | .boolean b :: vrest => simp [scanLoop, scanStep]
            | .object es :: vrest => simp [scanLoop, scanStep]
            | .ecmaArray es :: vrest => simp [scanLoop, scanStep]
            | .strictArray vs :: vrest => simp [scanLoop, scanStep]
            | .null :: vrest => simp [scanLoop, scanStep]
            | [.string name] =>
                by_cases hname : name = "onMetaData" <;>
                  simp [scanLoop, scanStep, hname]
            | .string name :: v :: vrest =>
                have hname : ¬ name = "onMetaData" := by
                  simpa [itemOk] using hbad
                simp [scanLoop, scanStep, hname]
      · simp [scanLoop]
  | cons i pre ih =>
      intro s hwf hnkf bad post hbad
      have hok : itemOk i = true := hwf i (by simp)
      have hikf : scriptHasKeyframes i = false := hnkf i (by simp)
      have hwf' : ∀ j ∈ pre, itemOk j = true := fun j hj => hwf j (by simp [hj])
      have hnkf' : ∀ j ∈ pre, scriptHasKeyframes j = false :=
        fun j hj => hnkf j (by simp [hj])
      rcases i with t | _
      · rcases t with ⟨ds, ts, d⟩
        cases d with
        | audio =>
            simp only [List.cons_append, scanLoop, scanStep]
            exact ih _ hwf' hnkf' bad post hbad
        | video ft =>
            by_cases hft : ft = FrameType.keyFrame
            · subst hft
              simp only [List.cons_append, scanLoop, scanStep, if_pos rfl]
              exact ih _ hwf' hnkf' bad post hbad
            · simp only [List.cons_append, scanLoop, scanStep, if_neg hft]
              exact ih _ hwf' hnkf' bad post hbad
        | script vals =>
            match vals with
            | [] => simp [itemOk] at hok
            | .number q :: vrest => simp [itemOk] at hok
            | .boolean b :: vrest => simp [itemOk] at hok
            | .object es :: vrest => simp [itemOk] at hok
            | .ecmaArray es :: vrest => simp [itemOk] at hok
            | .strictArray vs :: vrest => simp [itemOk] at hok
            | .null :: vrest => simp [itemOk] at hok
            | [.string name] => simp [itemOk] at hok
            | .string name :: v :: vrest =>
                have hname : name = "onMetaData" := by
                  simpa [itemOk] using hok
                subst hname
                have hkf : hasKeyframes v = false := by
                  simpa [scriptHasKeyframes] using hikf
                simp only [List.cons_append, scanLoop, scanStep, if_pos rfl, hkf]
                exact ih _ hwf' hnkf' bad post hbad
      · simp [itemOk] at hok

/-- C2 (confirmed): on a well-formed FLV stream, `generate_patch` returns
`None` exactly when some `onMetaData` script tag's metadata already
contains a `keyframes` entry or the file contains no script tag at all;
any other well-formed stream yields `Some(patch)`; and the scan fails with
an error at a malformed item or at a script tag whose first AMF0 value is
not the string `"onMetaData"` (reached before any `keyframes`
short-circuit). -/
theorem c2_generate_patch_characterization :
    (∀ (h : FlvHeader) (items : List ScanItem),
        (∀ i ∈ items, itemOk i = true) →
        (generatePatch h items = .ok none
          ↔ (∃ i ∈ items, scriptHasKeyframes i = true)
            ∨ ∀ i ∈ items, isScriptItem i = false))
    ∧ (∀ (h : FlvHeader) (items : List ScanItem),
        (∀ i ∈ items, itemOk i = true) →
        ¬((∃ i ∈ items, scriptHasKeyframes i = true)
            ∨ ∀ i ∈ items, isScriptItem i = false) →
        ∃ p, generatePatch h items = .ok (some p))
    ∧ (∀ (h : FlvHeader) (pre : List ScanItem) (bad : ScanItem)
          (post : List ScanItem),
        (∀ i ∈ pre, itemOk i = true) →
        (∀ i ∈ pre, scriptHasKeyframes i = false) →
        itemOk bad = false →
        generatePatch h (pre ++ bad :: post) = .error ()) := by
  have key : ∀ (h : FlvHeader) (items : List ScanItem),
      (∀ i ∈ items, itemOk i = true) →
      ∃ out, scanLoop (ScanState.init h) items = .ok out
        ∧ (outcomeResult out = none
            ↔ (∃ i ∈ items, scriptHasKeyframes i = true)
              ∨ ∀ i ∈ items, isScriptItem i = false) := by
    intro h items hwf
    obtain ⟨out, hout, hiff⟩ := scanLoop_none_iff items (ScanState.init h) hwf
    refine ⟨out, hout, ?_⟩
    rw [hiff]
    simp [ScanState.init]
  refine ⟨?_, ?_, ?_⟩
  · intro h items hwf
    obtain ⟨out, hout, hiff⟩ := key h items hwf
    rw [generatePatch, hout]
    simpa [Except.map] using hiff
  · intro h items hwf hnone
    obtain ⟨out, hout, hiff⟩ := key h items hwf
    rw [generatePatch, hout]
    rcases ho : outcomeResult out with _ | p
    · exact absurd (hiff.mp ho) hnone
    · exact ⟨p, by simp [Except.map, ho]⟩
  · intro h pre bad post hwf hnkf hbad
    rw [generatePatch, scanLoop_error pre (ScanState.init h) hwf hnkf bad post hbad]
    rfl

/-- Witness for C2 at concrete inputs: a one-tag stream whose metadata
already has `keyframes` (yields `None`), a one-tag stream without it
(yields `Some`), and the stream consisting of a single decoder failure
(yields an error). -/
theorem c2_generate_patch_characterization_witness :
    (generatePatch ⟨9⟩
        [.tag ⟨30, 0, .script [.string "onMetaData",
            .object [("keyframes", .null)]]⟩] = .ok none
      ↔ (∃ i ∈ [ScanItem.tag ⟨30, 0, .script [.string "onMetaData",
            .object [("keyframes", .null)]]⟩], scriptHasKeyframes i = true)
        ∨ ∀ i ∈ [ScanItem.tag ⟨30, 0, .script [.string "onMetaData",
            .object [("keyframes", .null)]]⟩], isScriptItem i = false)
    ∧ (∃ p, generatePatch ⟨9⟩
        [.tag ⟨30, 0, .script [.string "onMetaData", .object []]⟩]
          = .ok (some p))
    ∧ generatePatch ⟨9⟩ ([] ++ .malformed :: []) = .error () :=
  ⟨c2_generate_patch_characterization.1 ⟨9⟩ _ (by decide),
   c2_generate_patch_characterization.2.1 ⟨9⟩ _ (by decide) (by decide),
   c2_generate_patch_characterization.2.2 ⟨9⟩ [] .malformed [] (by decide)
     (by decide) (by decide)⟩

/-! ## C3 : two-pass length consistency of the patched tag -/

/-- A strict array of shifted numbers serializes to 9 bytes per element,
independently of the shift and of the numeric values. -/
theorem amf0ListSize_shifted (l : List ℚ) (c : ℚ) :
    amf0ListSize (l.map fun i => .number (i + c)) = 9 * l.length := by
  induction l with
  | nil => rfl
  | cons x l ih =>
      simp only [List.map_cons, amf0ListSize, amf0Size, ih, List.length_cons]
      ring

/-- Serialized entry sizes are additive over concatenation. -/
theorem amf0PairsSize_append (a b : List (String × Amf0Value)) :
    amf0PairsSize (a ++ b) = amf0PairsSize a + amf0PairsSize b := by
  induction a with
  | nil => simp [amf0PairsSize]
  | cons p a ih =>
      rcases p with ⟨k, v⟩
      simp only [List.cons_append, amf0PairsSize, List.append_eq, ih]
      ring

/-- The serialized size of the `keyframes` object does not depend on the
`offset` the index carries — numbers have constant width. -/
theorem intoAmf0_size_offset (kf : Keyframes) (q : ℚ) :
    amf0Size ({ kf with offset := q } : Keyframes).intoAmf0.2
      = amf0Size kf.intoAmf0.2 := by
  simp [Keyframes.intoAmf0, amf0Size, amf0PairsSize, amf0ListSize_shifted]

/-- Pass-length invariance: serializing the patched tag with any `offset`
value yields the same byte length. -/
theorem makePatchedLen_insert_offset (m : Amf0Value) (kf : Keyframes) (q : ℚ) :
    makePatchedLen (insertKeyframes m { kf with offset := q })
      = makePatchedLen (insertKeyframes m kf) := by
  cases m with
  | object es =>
      simp [insertKeyframes, makePatchedLen, amf0Size, amf0PairsSize_append,
        amf0PairsSize, Keyframes.intoAmf0, amf0ListSize_shifted]
  | ecmaArray es =>
      simp [insertKeyframes, makePatchedLen, amf0Size, amf0PairsSize_append,
        amf0PairsSize, Keyframes.intoAmf0, amf0ListSize_shifted]
  | number x => rfl
  | boolean b => rfl
  | string str => rfl
  | strictArray vs => rfl
  | null => rfl

/-- C3 (confirmed): the candidate tag of pass 1 (serialized with the scan's
keyframes, `offset_adjust = 0`) and the final tag of pass 2 (offset set to
`patched_len − metadata_size`) have exactly the same byte length, and the
emitted `filepositions` numbers are the recorded original-file offsets
shifted by `|patched| − origin_size`; the final patched value is the
metadata object with the `keyframes` pair appended last. -/
theorem c3_two_pass_consistency :
    ∀ (h : FlvHeader) (items : List ScanItem) (p : GPPatch),
      generatePatch h items = .ok (some p) →
      makePatchedLen (insertKeyframes p.metadata p.keyframes) = p.patchedLen
      ∧ p.kfFinal.filepositions.map (fun x => x + p.kfFinal.offset)
          = p.keyframes.filepositions.map
              (fun x => x + ((p.patchedLen : ℚ) - (p.origin_size : ℚ)))
      ∧ ∀ es, p.metadata = .object es →
          p.patchedValue = .object (es ++ [p.kfFinal.intoAmf0]) := by
  intro h items p hp
  rw [generatePatch] at hp
  rcases hloop : scanLoop (ScanState.init h) items with e | out
  · rw [hloop] at hp
    simp [Except.map] at hp
  · rw [hloop] at hp
    rcases out with s | s
    · simp [Except.map, outcomeResult] at hp
    · simp only [Except.map, outcomeResult] at hp
      rcases hmm : s.metadata with _ | m
      · rw [hmm] at hp
        simp at hp
      · rw [hmm] at hp
        simp only [Option.map_some'] at hp
        injection hp with hp
        injection hp with hp
        subst hp
        have hlen :
            makePatchedLen (insertKeyframes m
              { s.keyframes with
                offset := ((makePatchedLen (insertKeyframes m s.keyframes) : ℚ)
                  - (s.metadataSize : ℚ)) })
            = makePatchedLen (insertKeyframes m s.keyframes) :=
          makePatchedLen_insert_offset m s.keyframes _
        refine ⟨?_, ?_, ?_⟩
        · simp only [buildPatch]
          exact hlen.symm
        · simp only [buildPatch, hlen]
        · intro es hes
          simp only [buildPatch] at hes ⊢
          rw [hes]
          rfl

/-- Concrete scan state for the C3 witness: the state after the single
`onMetaData` script tag of `itemsW3`. -/
def sW3 : ScanState :=
  { offset := 58
    keyframes := Keyframes.new
    metadataOffset := 13
    metadataSize := 45
    metadata := some (.object []) }

/-- Concrete item stream for the C3 witness. -/
def itemsW3 : List ScanItem :=
  [.tag ⟨30, 0, .script [.string "onMetaData", .object []]⟩]

/-- The patch `generate_patch` builds for `itemsW3`. -/
def pW3 : GPPatch := buildPatch sW3 (.object [])

/-- Witness for C3 at a concrete input, with the hypothesis discharged by
computation. -/
theorem c3_two_pass_consistency_witness :
    makePatchedLen (insertKeyframes pW3.metadata pW3.keyframes) = pW3.patchedLen
    ∧ pW3.kfFinal.filepositions.map (fun x => x + pW3.kfFinal.offset)
        = pW3.keyframes.filepositions.map
            (fun x => x + ((pW3.patchedLen : ℚ) - (pW3.origin_size : ℚ)))
    ∧ pW3.patchedValue = .object ([] ++ [pW3.kfFinal.intoAmf0]) :=
  ⟨(c3_two_pass_consistency ⟨9⟩ itemsW3 pW3 rfl).1,
   (c3_two_pass_consistency ⟨9⟩ itemsW3 pW3 rfl).2.1,
   (c3_two_pass_consistency ⟨9⟩ itemsW3 pW3 rfl).2.2 [] rfl⟩

/-! ## C6 : shape and monotonicity of the keyframe index -/

/-- The timestamp an item contributes to the keyframe index: `some` exactly
for video tags whose frame type is `KeyFrame`. -/
def kfTimestamp : ScanItem → Option ℕ
  | .tag t =>
      match t.data with
      | .video .keyFrame => some t.timestamp
      | _ => none
  | .malformed => none

/-- The keyframe timestamps of an item stream, in order. -/
def keyframeTimestamps (items : List ScanItem) : List ℕ :=
  items.filterMap kfTimestamp

/-- Classification of one scan step: it either continues — advancing the
offset by `tag_size + 4` and appending `(offset, timestamp / 1000)` to the
index exactly for a video keyframe — or short-circuits on a script tag
(leaving the index untouched), or fails. -/
theorem scanStep_classify (s : ScanState) (t : FlvTag) :
    (∃ s', scanStep s t = .next s'
        ∧ s'.offset = s.offset + tagSize t + 4
        ∧ ((s'.keyframes = s.keyframes ∧ kfTimestamp (.tag t) = none)
            ∨ (s'.keyframes = s.keyframes.add s.offset ((t.timestamp : ℚ) / 1000)
                ∧ kfTimestamp (.tag t) = some t.timestamp)))
    ∨ (∃ s', scanStep s t = .earlyNone s'
        ∧ s'.keyframes = s.keyframes ∧ kfTimestamp (.tag t) = none)
    ∨ scanStep s t = .fail := by
  rcases t with ⟨ds, ts, d⟩
  cases d with
  | audio => exact Or.inl ⟨_, rfl, rfl, Or.inl ⟨rfl, rfl⟩⟩
  | video ft =>
      by_cases hft : ft = FrameType.keyFrame
      · subst hft
        refine Or.inl ⟨{ s with
            keyframes := s.keyframes.add s.offset ((ts : ℚ) / 1000)
            offset := s.offset + tagSize ⟨ds, ts, .video .keyFrame⟩ + 4 },
          ?_, rfl, Or.inr ⟨rfl, rfl⟩⟩
        simp [scanStep]
      · refine Or.inl ⟨{ s with
            offset := s.offset + tagSize ⟨ds, ts, .video ft⟩ + 4 },
          ?_, rfl, Or.inl ⟨rfl, ?_⟩⟩
        · simp [scanStep, hft]
        · cases ft <;> simp_all [kfTimestamp]
  | script vals =>
      match vals with
      | [] => exact Or.inr (Or.inr rfl)
      | .number q :: vrest => exact Or.inr (Or.inr rfl)
      | .boolean b :: vrest => exact Or.inr (Or.inr rfl)
      | .object es :: vrest => exact Or.inr (Or.inr rfl)
      | .ecmaArray es :: vrest => exact Or.inr (Or.inr rfl)
      | .strictArray vs :: vrest => exact Or.inr (Or.inr rfl)
      | .null :: vrest => exact Or.inr (Or.inr rfl)
      | [.string name] =>
          by_cases hname : name = "onMetaData"
          · subst hname
            exact Or.inr (Or.inr (by simp [scanStep]))
          · exact Or.inr (Or.inr (by simp [scanStep, hname]))
      | .string name :: v :: vrest =>
          by_cases hname : name = "onMetaData"
          · subst hname
            by_cases hkf : hasKeyframes v = true
            · refine Or.inr (Or.inl ⟨{ s with
                  metadataOffset := s.offset
                  metadataSize :=
                    tagSize ⟨ds, ts, .script (.string "onMetaData" :: v :: vrest)⟩ + 4 },
                ?_, rfl, rfl⟩)
              simp [scanStep, hkf]
            · have hkf' : hasKeyframes v = false := by simpa using hkf
              refine Or.inl ⟨{ s with
                  offset := s.offset +
                    tagSize ⟨ds, ts, .script (.string "onMetaData" :: v :: vrest)⟩ + 4
                  metadataOffset := s.offset
                  metadataSize :=
                    tagSize ⟨ds, ts, .script (.string "onMetaData" :: v :: vrest)⟩ + 4
                  metadata := some v },
                ?_, rfl, Or.inl ⟨rfl, rfl⟩⟩
              simp [scanStep, hkf']
          · exact Or.inr (Or.inr (by simp [scanStep, hname]))

/-- Scan invariants for the file-position list: equal length with `times`,
strictly increasing, and bounded by the running offset. -/
theorem scanLoop_fp_invariants (items : List ScanItem) :
    ∀ (s : ScanState) (out : ScanOutcome), scanLoop s items = .ok out →
      s.keyframes.filepositions.length = s.keyframes.times.length →
      List.Chain' (· < ·) s.keyframes.filepositions →
      (∀ x ∈ s.keyframes.filepositions, x < (s.offset : ℚ)) →
      out.state.keyframes.filepositions.length
          = out.state.keyframes.times.length
      ∧ List.Chain' (· < ·) out.state.keyframes.filepositions := by
  induction items with
  | nil =>
      intro s out hloop hlen hch _
      cases hloop
      exact ⟨hlen, hch⟩
  | cons i rest ih =>
      intro s out hloop hlen hch hbd
      rcases i with t | _
      · rcases scanStep_classify s t with
          ⟨s', hstep, hoff, hk | hk⟩ | ⟨s', hstep, hk, _⟩ | hstep
        · rw [scanLoop_cons_next hstep] at hloop
          refine ih s' out hloop (by rw [hk.1]; exact hlen) (by rw [hk.1]; exact hch) ?_
          intro x hx
          rw [hk.1] at hx
          refine lt_of_lt_of_le (hbd x hx) ?_
          rw [hoff]
          have hle : s.offset ≤ s.offset + tagSize t + 4 := by omega
          exact_mod_cast hle
        · rw [scanLoop_cons_next hstep] at hloop
          have hpos : (s.offset : ℚ) < (s'.offset : ℚ) := by
            rw [hoff]
            have hlt : s.offset < s.offset + tagSize t + 4 := by omega
            exact_mod_cast hlt
          refine ih s' out hloop ?_ ?_ ?_
          · rw [hk.1]; simp [Keyframes.add, hlen]
          · rw [hk.1]
            simp only [Keyframes.add]
            refine List.chain'_append.mpr ⟨hch, List.chain'_singleton _, ?_⟩
            intro x hx y hy
            simp only [List.head?_cons, Option.mem_some_iff] at hy
            subst hy
            exact hbd x (List.mem_of_mem_getLast? hx)
          · rw [hk.1]
            simp only [Keyframes.add]
            intro x hx
            rcases List.mem_append.mp hx with hx | hx
            · exact lt_trans (hbd x hx) hpos
            · simp only [List.mem_singleton] at hx
              subst hx
              exact hpos
        · rw [scanLoop_cons_early hstep] at hloop
          cases hloop
          rw [ScanOutcome.state, hk]
          exact ⟨hlen, hch⟩
        · rw [scanLoop_cons_fail hstep] at hloop
          cases hloop
      · simp [scanLoop] at hloop

/-- Scan invariant for the times list: if the already-recorded times
followed by the remaining keyframe timestamps (in seconds) form a
non-decreasing chain, so does the final times list. -/
theorem scanLoop_times_chain (items : List ScanItem) :
    ∀ (s : ScanState) (out : ScanOutcome), scanLoop s items = .ok out →
      List.Chain' (· ≤ ·)
        (s.keyframes.times
          ++ (keyframeTimestamps items).map fun n : ℕ => (n : ℚ) / 1000) →
      List.Chain' (· ≤ ·) out.state.keyframes.times := by
  induction items with
  | nil =>
      intro s out hloop h
      cases hloop
      simpa [keyframeTimestamps] using h
  | cons i rest ih =>
      intro s out hloop h
      rcases i with t | _
      · rcases scanStep_classify s t with
          ⟨s', hstep, _, hk⟩ | ⟨s', hstep, hk, hts⟩ | hstep
        · rw [scanLoop_cons_next hstep] at hloop
          rcases hk with ⟨hkf, hts⟩ | ⟨hkf, hts⟩
          · refine ih s' out hloop ?_
            rw [hkf]
            simpa [keyframeTimestamps, List.filterMap_cons, hts] using h
          · refine ih s' out hloop ?_
            rw [hkf]
            simp only [keyframeTimestamps, List.filterMap_cons, hts,
              List.map_cons, Keyframes.add] at h ⊢
            simpa [List.append_assoc] using h
        · rw [scanLoop_cons_early hstep] at hloop
          cases hloop
          rw [ScanOutcome.state, hk]
          rw [keyframeTimestamps, List.filterMap_cons, hts] at h
          exact (List.chain'_append.mp h).1
        · rw [scanLoop_cons_fail hstep] at hloop
          cases hloop
      · simp [scanLoop] at hloop

/-- C6, amended: for every decoded stream the scan accepts, the keyframe
index has `filepositions` and `times` of equal length and strictly
increasing `filepositions`; `times` is non-decreasing provided the video
keyframe timestamps appear in non-decreasing order in the stream (the code
does not enforce or sort timestamps, so this extra hypothesis is needed). -/
theorem c6_scan_monotone :
    ∀ (h : FlvHeader) (items : List ScanItem) (out : ScanOutcome),
      scanLoop (ScanState.init h) items = .ok out →
      out.state.keyframes.filepositions.length
          = out.state.keyframes.times.length
      ∧ List.Chain' (· < ·) out.state.keyframes.filepositions
      ∧ (List.Chain' (· ≤ ·) (keyframeTimestamps items) →
          List.Chain' (· ≤ ·) out.state.keyframes.times) := by
  intro h items out hloop
  have hA := scanLoop_fp_invariants items (ScanState.init h) out hloop rfl
    (by simp [ScanState.init, Keyframes.new])
    (by simp [ScanState.init, Keyframes.new])
  refine ⟨hA.1, hA.2, ?_⟩
  intro hts
  refine scanLoop_times_chain items (ScanState.init h) out hloop ?_
  simp only [ScanState.init, Keyframes.new, List.nil_append]
  refine (List.chain'_map (fun n : ℕ => (n : ℚ) / 1000)).mpr (hts.imp ?_)
  intro a b hab
  have hc : (a : ℚ) ≤ (b : ℚ) := by exact_mod_cast hab
  exact (div_le_div_iff_of_pos_right (by norm_num)).mpr hc

/-- Item stream for the C6 witness: a single video keyframe. -/
def itemsW6 : List ScanItem := [.tag ⟨5, 0, .video .keyFrame⟩]

/-- Final scan state for the C6 witness. -/
def sW6 : ScanState :=
  { offset := 33
    keyframes := Keyframes.new.add 13 ((0 : ℚ) / 1000)
    metadataOffset := 0
    metadataSize := 0
    metadata := none }

/-- Witness for C6 at a concrete input, with both the scan hypothesis and
the timestamp-order hypothesis discharged. -/
theorem c6_scan_monotone_witness :
    (ScanOutcome.done sW6).state.keyframes.filepositions.length
        = (ScanOutcome.done sW6).state.keyframes.times.length
    ∧ List.Chain' (· < ·) (ScanOutcome.done sW6).state.keyframes.filepositions
    ∧ List.Chain' (· ≤ ·) (ScanOutcome.done sW6).state.keyframes.times :=
  ⟨(c6_scan_monotone ⟨9⟩ itemsW6 (.done sW6) rfl).1,
   (c6_scan_monotone ⟨9⟩ itemsW6 (.done sW6) rfl).2.1,
   (c6_scan_monotone ⟨9⟩ itemsW6 (.done sW6) rfl).2.2
     (by simp [itemsW6, keyframeTimestamps, List.filterMap_cons, kfTimestamp,
       List.chain'_singleton])⟩

/-- Item stream for the C6 counterexample: two video keyframes with
decreasing timestamps (1000 ms then 0 ms) — structurally a well-formed
stream the scan accepts. -/
def cexItems6 : List ScanItem :=
  [.tag ⟨5, 1000, .video .keyFrame⟩, .tag ⟨5, 0, .video .keyFrame⟩]

/-- Final scan state for the C6 counterexample. -/
def sCex6 : ScanState :=
  { offset := 53
    keyframes := (Keyframes.new.add 13 ((1000 : ℚ) / 1000)).add 33 ((0 : ℚ) / 1000)
    metadataOffset := 0
    metadataSize := 0
    metadata := none }

/-- C6, counterexample to the claim as stated: on a well-formed FLV whose
keyframe timestamps decrease, the scan succeeds and produces
`times = [1, 0]`, which is not non-decreasing. -/
theorem c6_times_counterexample :
    scanLoop (ScanState.init ⟨9⟩) cexItems6 = .ok (.done sCex6)
    ∧ sCex6.keyframes.times = [1, 0]
    ∧ ¬ List.Chain' (· ≤ ·) sCex6.keyframes.times :=
  ⟨rfl,
   by norm_num [sCex6, Keyframes.new, Keyframes.add],
   by norm_num [sCex6, Keyframes.new, Keyframes.add, List.chain'_cons]⟩

end FlvKeyframes
